import Mathlib

/- Verification of the Keccak/SHA-3 sponge implementation of
   src/circuit/algorithms/src/keccak/hash.rs.

   The circuit computes over boolean wires; the embedding is generic over a wire
   algebra `BoolOps α` so that the value semantics (`Bool`) and the mode-tagged
   wire semantics (`Wire`) are both instances of the same translated code.
   Lanes are little-endian lists of 64 wire bits, the state is a flat list of
   wire bits, and the five-by-five lane matrix is a list of 25 lanes indexed by
   `x + 5 * y`, exactly as in the source.  The two `debug_assert!` precondition
   checks of `hash`/`pad_keccak`/`pad_sha3` and the `E::halt` on empty input are
   modelled as `Except.error` returns, in source order; internal shape
   assertions (state width, lane width, table lengths) appear as hypotheses of
   the theorems instead.  `hash` additionally returns the number of permutation
   invocations it performed, so that claims about permutation-call counts are
   statable. -/

namespace KeccakCircuit

/-- A boolean wire algebra: the constants and operations the circuit applies to
wire values. -/
structure BoolOps (α : Type) where
  cfalse : α
  ctrue : α
  bxor : α → α → α
  band : α → α → α
  bnot : α → α

/-- The plain boolean value semantics of wires. -/
def boolOps : BoolOps Bool where
  cfalse := false
  ctrue := true
  bxor := xor
  band := and
  bnot := not

/-- Mode tag of a circuit wire: a known compile-time constant or a witnessed
variable. -/
inductive WMode where
  | konst : WMode
  | wvar : WMode
deriving DecidableEq, Repr

/-- A circuit wire: a boolean value together with its mode tag. -/
structure Wire where
  mode : WMode
  val : Bool
deriving DecidableEq, Repr

/-- Mode of the result of a binary wire operation: a known constant exactly when
both operands are known constants, a witnessed variable otherwise. -/
def WMode.mix : WMode → WMode → WMode
  | .konst, .konst => .konst
  | _, _ => .wvar

/-- The mode-tagged wire semantics: operations compute the truth-table value and
combine the mode tags. -/
def wireOps : BoolOps Wire where
  cfalse := ⟨.konst, false⟩
  ctrue := ⟨.konst, true⟩
  bxor := fun a b => ⟨a.mode.mix b.mode, xor a.val b.val⟩
  band := fun a b => ⟨a.mode.mix b.mode, a.val && b.val⟩
  bnot := fun a => ⟨a.mode, !a.val⟩

variable {α β : Type} (ops : BoolOps α)

/-- Bitwise XOR of two 64-bit lanes (`U64 ^ U64` over wire bits). -/
def lxor (u v : List α) : List α := List.zipWith ops.bxor u v

/-- Bitwise AND of two 64-bit lanes (`U64 & U64` over wire bits). -/
def land (u v : List α) : List α := List.zipWith ops.band u v

/-- Bitwise NOT of a 64-bit lane (`!U64` over wire bits). -/
def lnot (u : List α) : List α := u.map ops.bnot

/-- `Keccak::rotate_left` (hash.rs lines 271-277): take the little-endian bits,
skip `n` of them, chain the bits again, and take 64. -/
def rotate_left (value : List α) (n : Nat) : List α :=
  (value.drop n ++ value).take 64

/-- Modelled from the spec: `rotl(word, n)`, the cyclic LEFT rotation of a
64-bit little-endian lane by `n` positions (spec section 4.3).  Stated from the
spec's words, to be compared with the source's `rotate_left`. -/
def rotl_spec (value : List α) (n : Nat) : List α :=
  value.drop ((64 - n % 64) % 64) ++ value.take ((64 - n % 64) % 64)

/-- The θ column parities (hash.rs lines 192-195):
`C[x] = a[x] ⊕ a[x+5] ⊕ a[x+10] ⊕ a[x+15] ⊕ a[x+20]`. -/
def thetaC (a : List (List α)) : List (List α) :=
  (List.range 5).map fun x =>
    lxor ops
      (lxor ops
        (lxor ops (lxor ops (a.getD x []) (a.getD (x + 5) [])) (a.getD (x + 10) []))
        (a.getD (x + 15) []))
      (a.getD (x + 20) [])

/-- The θ mixing lanes (hash.rs lines 206-209):
`D[x] = C[(x+4) % 5] ⊕ rotate_left(C[(x+1) % 5], 63)`. -/
def thetaD (c : List (List α)) : List (List α) :=
  (List.range 5).map fun x =>
    lxor ops (c.getD ((x + 4) % 5) []) (rotate_left (c.getD ((x + 1) % 5) []) 63)

/-- The θ step of the round function (hash.rs lines 210-215):
`a1[x + 5y] = a[x + 5y] ⊕ D[x]`, pushed with `y` outer and `x` inner. -/
def theta (a : List (List α)) : List (List α) :=
  ((List.range 5).map fun y => (List.range 5).map fun x =>
    lxor ops (a.getD (x + 5 * y) []) ((thetaD ops (thetaC ops a)).getD x [])).flatten

/-- The iteration order of the nested `for y { for x { .. } }` loop of the ρπ
step, as pairs `(y, x)`. -/
def piPairs : List (Nat × Nat) :=
  (List.range 5).flatMap fun y => (List.range 5).map fun x => (y, x)

/-- The combined ρ and π step (hash.rs lines 235-242): starting from a copy of
`a1`, write `rotate_left(a1[x + 5y], rotl[x + 5y])` into index
`y + 5 * ((2x + 3y) % 5)`, iterating `y` outer and `x` inner. -/
def rhoPi (a1 : List (List α)) (rotl : List Nat) : List (List α) :=
  piPairs.foldl
    (fun a2 yx =>
      a2.set (yx.1 + (2 * yx.2 + 3 * yx.1) % 5 * 5)
        (rotate_left (a1.getD (yx.2 + 5 * yx.1) []) (rotl.getD (yx.2 + 5 * yx.1) 0)))
    a1

/-- The χ step (hash.rs lines 252-260):
`a3[x + 5y] = a2[x + 5y] ⊕ ((¬a2[(x+1) % 5 + 5y]) ∧ a2[(x+2) % 5 + 5y])`. -/
def chi (a2 : List (List α)) : List (List α) :=
  ((List.range 5).map fun y => (List.range 5).map fun x =>
    lxor ops (a2.getD (x + 5 * y) [])
      (land ops (lnot ops (a2.getD ((x + 1) % 5 + 5 * y) []))
        (a2.getD ((x + 2) % 5 + 5 * y) []))).flatten

/-- The ι step (hash.rs line 266): XOR the round constant into lane 0 only. -/
def iota (a3 : List (List α)) (rc : List α) : List (List α) :=
  a3.set 0 (lxor ops (a3.getD 0 []) rc)

/-- `Keccak::round` (hash.rs lines 178-268): `R = ι ∘ χ ∘ (ρ,π) ∘ θ`. -/
def round (a : List (List α)) (rc : List α) (rotl : List Nat) : List (List α) :=
  iota ops (chi ops (rhoPi (theta ops a) rotl)) rc

/-- Fuel-driven splitting of a list into chunks of `r` elements (Rust slice
`chunks`); the fuel bounds the number of chunks produced and `chunksOf` supplies
the list length, which always suffices for positive `r`. -/
def chunksAux (r : Nat) : Nat → List β → List (List β)
  | 0, _ => []
  | _, [] => []
  | fuel + 1, l => l.take r :: chunksAux r fuel (l.drop r)

/-- Rust's `chunks(r)` over a list. -/
def chunksOf (r : Nat) (l : List β) : List (List β) := chunksAux r l.length l

/-- `Keccak::permutation_f` (hash.rs lines 151-171): partition the input into
64-bit lanes, apply the round function once per round constant in order, and
flatten the lanes back. -/
def permutation_f (input : List α) (round_constants : List (List α))
    (rotl : List Nat) : List α :=
  (round_constants.foldl (fun a rc => round ops a rc rotl) (chunksOf 64 input)).flatten

/-- The number of `0` bits appended by the `while (len % bitrate) != (bitrate - 1)`
padding loop of hash.rs (lines 98-100 and 131-133), in closed form; the lemma
`zeroFill_spec` proves the closed form is exactly the loop's fixpoint. -/
def zeroFill (len r : Nat) : Nat := (r - 1) - len % r

/-- `Keccak::pad_keccak` (hash.rs lines 87-111): byte-align with zeros, append a
`1` bit, fill with zeros to `r - 1 (mod r)`, append a `1` bit, and chunk.  The
`debug_assert!(bitrate > 0)` is modelled as an error return. -/
def pad_keccak (input : List α) (bitrate : Nat) : Except String (List (List α)) :=
  if bitrate = 0 then .error "The bitrate must be positive" else
  let aligned := input ++ List.replicate ((input.length + 7) / 8 * 8 - input.length) ops.cfalse
  let step1 := aligned ++ [ops.ctrue]
  let step2 := step1 ++ List.replicate (zeroFill step1.length bitrate) ops.cfalse
  let step3 := step2 ++ [ops.ctrue]
  .ok (chunksOf bitrate step3)

/-- `Keccak::pad_sha3` (hash.rs lines 117-144): byte-align with zeros, append
the domain-suffix bits `0,1,1,0`, fill with zeros to `r - 1 (mod r)`, append a
`1` bit, and chunk.  The `debug_assert!(bitrate > 1)` is modelled as an error
return. -/
def pad_sha3 (input : List α) (bitrate : Nat) : Except String (List (List α)) :=
  if bitrate ≤ 1 then .error "The bitrate must be greater than 1" else
  let aligned := input ++ List.replicate ((input.length + 7) / 8 * 8 - input.length) ops.cfalse
  let step1 := aligned ++ [ops.cfalse, ops.ctrue, ops.ctrue, ops.cfalse]
  let step2 := step1 ++ List.replicate (zeroFill step1.length bitrate) ops.cfalse
  let step3 := step2 ++ [ops.ctrue]
  .ok (chunksOf bitrate step3)

/-- One block of the absorbing phase (hash.rs lines 52-54):
`for (j, bit) in block.enumerate() { s[j] = s[j] ^ bit }`. -/
def absorbBlock (s block : List α) : List α :=
  block.enum.foldl (fun t jb => t.set jb.1 (ops.bxor (t.getD jb.1 ops.cfalse) jb.2)) s

/-- The absorbing phase (hash.rs lines 50-57): XOR each padded block into the
state and permute, once per block, counting the permutation calls. -/
def absorb (round_constants : List (List α)) (rotl : List Nat) (s : List α)
    (blocks : List (List α)) : List α × Nat :=
  blocks.foldl
    (fun p block =>
      (permutation_f ops (absorbBlock ops p.1 block) round_constants rotl, p.2 + 1))
    (s, 0)

/-- The squeezing phase (hash.rs lines 71-76):
`while z.len() < VARIANT { s = f(s); z = z ++ s[0..bitrate) }`, counting the
permutation calls.  Fuel-driven; on reachable inputs `z` grows by the positive
bitrate each iteration, so any fuel of at least `VARIANT` suffices to drive the
loop to its exit condition (lemmas `squeezeLoop_len`, `squeezeLoop_lockstep`). -/
def squeezeLoop (round_constants : List (List α)) (rotl : List Nat)
    (variant bitrate : Nat) : Nat → List α → List α → List α × Nat
  | 0, _, z => (z, 0)
  | fuel + 1, s, z =>
    if z.length < variant then
      let s2 := permutation_f ops s round_constants rotl
      let p := squeezeLoop round_constants rotl variant bitrate fuel s2 (z ++ s2.take bitrate)
      (p.1, p.2 + 1)
    else (z, 0)

/-- `Keccak::hash` (hash.rs lines 23-79), parameterized by the `TYPE` and
`VARIANT` constants and by the `round_constants` and `rotl` tables carried by
the `Keccak` struct.  The bitrate `debug_assert!` and the `E::halt` on empty
input become error returns, in source order, and the `2.. => unreachable!` arm
of the `TYPE` match becomes an error as well.  The second component of the
result is the number of permutation invocations performed. -/
def hash (type variant : Nat) (input : List α) (round_constants : List (List α))
    (rotl : List Nat) : Except String (List α × Nat) :=
  let bitrate := (200 - variant / 4) * 8
  if 1600 ≤ bitrate then .error "The bitrate must be less than the permutation width"
  else if input.isEmpty then .error "The input to the hash function must not be empty"
  else
    match (match type with
      | 0 => pad_keccak ops input bitrate
      | 1 => pad_sha3 ops input bitrate
      | _ => .error "Invalid Keccak type") with
    | .error e => .error e
    | .ok padded_blocks =>
      let p := absorb ops round_constants rotl (List.replicate 1600 ops.cfalse) padded_blocks
      let z := p.1.take bitrate
      let q := squeezeLoop ops round_constants rotl variant bitrate variant p.1 z
      .ok (q.1.take variant, p.2 + q.2)

/-- Modelled from the spec: the standard Keccak ρ rotation offsets indexed by
`x + 5y` (spec section 3, RotationOffsets), generated by the
`(t + 1)(t + 2) / 2` walk of Algorithm 5 quoted in hash.rs lines 226-233: start
at `(x, y) = (1, 0)` and step `(x, y) := (y, (2x + 3y) mod 5)`; the offset
table itself is built in the keccak module file, which is not among the
sources. -/
def rhoOffsets : List Nat :=
  ((List.range 24).foldl
    (fun st t =>
      (st.1.set (st.2.1 + 5 * st.2.2) ((t + 1) * (t + 2) / 2 % 64),
       (st.2.2, (2 * st.2.1 + 3 * st.2.2) % 5)))
    (List.replicate 25 0, (1, 0))).1

/-- Modelled from the spec: the `rotl` table carried by the `Keccak` struct
stores for each lane the complement `(64 - offset) % 64` of the standard ρ
offset, so that the skip-based `rotate_left` realizes a true left rotation by
the standard offset (the table construction is in the keccak module file, which
is not among the sources; this reading is forced by the direction of
`rotate_left`, settled by theorem `keccak_rotate_left_is_right_rotation`). -/
def codeRotl : List Nat := rhoOffsets.map fun k => (64 - k) % 64

/-- Value projection of a wire-level hash result: keep the output bit values and
the permutation count, drop the mode tags. -/
def resultVal (r : Except String (List Wire × Nat)) : Except String (List Bool × Nat) :=
  r.map fun p => (p.1.map Wire.val, p.2)

/-! Helper lemmas about list indexing, the padding loop, chunking, and the
imperative write loops, used to settle the claims below. -/

theorem getD_set_self {l : List β} {i : Nat} (v d : β) (h : i < l.length) :
    (l.set i v).getD i d = v := by
  simp [List.getD_eq_getElem?_getD, List.getElem?_set, h]

theorem getD_set_ne {l : List β} {i j : Nat} (v d : β) (h : j ≠ i) :
    (l.set i v).getD j d = l.getD j d := by
  simp [List.getD_eq_getElem?_getD, List.getElem?_set, Ne.symm h]

theorem getD_mem {l : List β} {i : Nat} (d : β) (h : i < l.length) :
    l.getD i d ∈ l := by
  rw [List.getD_eq_getElem l d h]
  exact List.getElem_mem h

/-- The closed form `zeroFill` is exactly the fixpoint reached by the padding
loop: appending that many zero bits makes the length congruent to `r - 1`
modulo `r`, and no strictly shorter extension does. -/
theorem zeroFill_spec (len r : Nat) (hr : 0 < r) :
    (len + zeroFill len r) % r = r - 1 ∧ ∀ k < zeroFill len r, (len + k) % r ≠ r - 1 := by
  have hm : len % r < r := Nat.mod_lt len hr
  have hdm := Nat.div_add_mod len r
  constructor
  · have h : len + zeroFill len r = (r - 1) + r * (len / r) := by
      unfold zeroFill; omega
    rw [h, Nat.add_mul_mod_self_left]
    exact Nat.mod_eq_of_lt (by omega)
  · intro k hk
    have h : len + k = (len % r + k) + r * (len / r) := by omega
    rw [h, Nat.add_mul_mod_self_left]
    have hlt : len % r + k < r := by unfold zeroFill at hk; omega
    rw [Nat.mod_eq_of_lt hlt]
    unfold zeroFill at hk; omega

theorem chunksAux_flatten (r : Nat) (hr : 0 < r) :
    ∀ (fuel : Nat) (l : List β), l.length ≤ fuel → (chunksAux r fuel l).flatten = l := by
  intro fuel
  induction fuel with
  | zero =>
    intro l h
    have : l = [] := List.eq_nil_of_length_eq_zero (by omega)
    subst this; rfl
  | succ n ih =>
    intro l h
    cases l with
    | nil => rfl
    | cons a t =>
      show ((a :: t).take r :: chunksAux r n ((a :: t).drop r)).flatten = a :: t
      rw [List.flatten_cons, ih _ (by simp at h ⊢; omega)]
      exact List.take_append_drop r (a :: t)

/-- Concatenating the chunks gives back the original list. -/
theorem chunksOf_flatten (r : Nat) (hr : 0 < r) (l : List β) :
    (chunksOf r l).flatten = l :=
  chunksAux_flatten r hr l.length l le_rfl

theorem chunksAux_length_mem (r : Nat) (hr : 0 < r) :
    ∀ (fuel : Nat) (l : List β), l.length ≤ fuel → r ∣ l.length →
      ∀ b ∈ chunksAux r fuel l, b.length = r := by
  intro fuel
  induction fuel with
  | zero =>
    intro l h _ b hb
    have : l = [] := List.eq_nil_of_length_eq_zero (by omega)
    subst this; simp [chunksAux] at hb
  | succ n ih =>
    intro l h hd b hb
    cases l with
    | nil => simp [chunksAux] at hb
    | cons a t =>
      have hrle : r ≤ (a :: t).length := Nat.le_of_dvd (by simp) hd
      rw [show chunksAux r (n + 1) (a :: t)
            = (a :: t).take r :: chunksAux r n ((a :: t).drop r) from rfl] at hb
      rcases List.mem_cons.mp hb with hb | hb
      · subst hb
        simp only [List.length_take]
        omega
      · exact ih _ (by simp at h ⊢; omega) (by simp; exact (Nat.dvd_sub' hd (dvd_refl r))) b hb

/-- Every chunk of a rate-aligned list has exactly `r` elements. -/
theorem chunksOf_length_mem (r : Nat) (hr : 0 < r) (l : List β) (hd : r ∣ l.length) :
    ∀ b ∈ chunksOf r l, b.length = r :=
  chunksAux_length_mem r hr l.length l le_rfl hd

/-- The number of chunks of a rate-aligned list, stated multiplicatively. -/
theorem chunksOf_count (r : Nat) (hr : 0 < r) (l : List β) (hd : r ∣ l.length) :
    (chunksOf r l).length * r = l.length := by
  have hall : ∀ x ∈ List.map List.length (chunksOf r l), x = r := fun x hx => by
    rcases List.mem_map.mp hx with ⟨b, hb, rfl⟩
    exact chunksOf_length_mem r hr l hd b hb
  have hmap := List.eq_replicate_of_mem hall
  have h2 := List.length_flatten (chunksOf r l)
  rw [chunksOf_flatten r hr, hmap, List.sum_replicate, smul_eq_mul, List.length_map] at h2
  omega

/-- A left fold of positional writes preserves the list length; the written
value may depend on the accumulator, as in the absorb loop. -/
theorem foldl_set_length (tgt : γ → Nat) (pay : List β → γ → β) :
    ∀ (ps : List γ) (l : List β),
      (ps.foldl (fun acc q => acc.set (tgt q) (pay acc q)) l).length = l.length := by
  intro ps
  induction ps with
  | nil => intro l; rfl
  | cons p ps ih => intro l; rw [List.foldl_cons, ih, List.length_set]

/-- Positions never written by a left fold of positional writes keep their
value. -/
theorem foldl_set_frame (tgt : γ → Nat) (pay : List β → γ → β) (d : β) :
    ∀ (ps : List γ) (l : List β) (j : Nat), (∀ p ∈ ps, tgt p ≠ j) →
      (ps.foldl (fun acc q => acc.set (tgt q) (pay acc q)) l).getD j d = l.getD j d := by
  intro ps
  induction ps with
  | nil => intro l j _; rfl
  | cons p ps ih =>
    intro l j hj
    rw [List.foldl_cons, ih _ _ (fun q hq => hj q (List.mem_cons_of_mem p hq)),
      getD_set_ne _ _ (Ne.symm (hj p (List.mem_cons_self p ps)))]

/-- When all written positions are pairwise distinct and the written values do
not read the accumulator, each written position holds its payload after the
fold. -/
theorem foldl_set_distinct (tgt : γ → Nat) (pay : γ → β) (d : β) :
    ∀ (ps : List γ) (l : List β), ps.Pairwise (fun p q => tgt p ≠ tgt q) →
      ∀ p ∈ ps, tgt p < l.length →
      (ps.foldl (fun acc q => acc.set (tgt q) (pay q)) l).getD (tgt p) d = pay p := by
  intro ps
  induction ps with
  | nil => intro l _ p hp; exact absurd hp (List.not_mem_nil p)
  | cons q ps ih =>
    intro l hpw p hp hlt
    rw [List.foldl_cons]
    rcases List.mem_cons.mp hp with rfl | hp
    · rw [foldl_set_frame tgt (fun _ x => pay x) d ps _ _
        (fun x hx => Ne.symm ((List.pairwise_cons.mp hpw).1 x hx))]
      exact getD_set_self _ _ hlt
    · exact ih _ (List.pairwise_cons.mp hpw).2 p hp (by rw [List.length_set]; exact hlt)

/-- Elementwise properties are preserved by a fold of positional writes whose
payloads satisfy the property. -/
theorem foldl_set_mem (tgt : γ → Nat) (pay : γ → β) (P : β → Prop) :
    ∀ (ps : List γ) (l : List β), (∀ x ∈ l, P x) → (∀ p ∈ ps, P (pay p)) →
      ∀ x ∈ ps.foldl (fun acc q => acc.set (tgt q) (pay q)) l, P x := by
  intro ps
  induction ps with
  | nil => intro l hl _ x hx; exact hl x hx
  | cons q ps ih =>
    intro l hl hpay x hx
    refine ih _ ?_ (fun p hp => hpay p (List.mem_cons_of_mem q hp)) x hx
    intro y hy
    rcases List.mem_or_eq_of_mem_set hy with hy | rfl
    · exact hl y hy
    · exact hpay q (List.mem_cons_self q ps)

/-- Positions never named by the enumerated absorb write loop keep their
value. -/
theorem absorbAux_frame :
    ∀ (es : List (Nat × α)) (s : List α) (j : Nat) (d : α), (∀ e ∈ es, e.1 ≠ j) →
      (es.foldl (fun t jb => t.set jb.1 (ops.bxor (t.getD jb.1 ops.cfalse) jb.2)) s).getD j d
        = s.getD j d := by
  intro es
  induction es with
  | nil => intro s j d _; rfl
  | cons e es ih =>
    intro s j d hj
    rw [List.foldl_cons, ih _ _ _ (fun q hq => hj q (List.mem_cons_of_mem e hq)),
      getD_set_ne _ _ (Ne.symm (hj e (List.mem_cons_self e es)))]

theorem absorbAux_len :
    ∀ (es : List (Nat × α)) (s : List α),
      (es.foldl (fun t jb => t.set jb.1 (ops.bxor (t.getD jb.1 ops.cfalse) jb.2)) s).length
        = s.length := by
  intro es
  induction es with
  | nil => intro s; rfl
  | cons e es ih => intro s; rw [List.foldl_cons, ih, List.length_set]

/-- The absorb write loop over an enumerated block, generalized to an arbitrary
starting index, rewrites exactly the enumerated positions with the XOR of the
old state bit and the block bit. -/
theorem absorbAux_getD :
    ∀ (block : List α) (n : Nat) (s : List α) (j : Nat),
      n ≤ j → j < n + block.length → j < s.length →
      ((block.enumFrom n).foldl
          (fun t jb => t.set jb.1 (ops.bxor (t.getD jb.1 ops.cfalse) jb.2)) s).getD
          j ops.cfalse
        = ops.bxor (s.getD j ops.cfalse) (block.getD (j - n) ops.cfalse) := by
  intro block
  induction block with
  | nil => intro n s j h1 h2 h3; simp at h2; omega
  | cons b bs ih =>
    intro n s j h1 h2 h3
    have hstep : ((b :: bs).enumFrom n).foldl
        (fun t jb => t.set jb.1 (ops.bxor (t.getD jb.1 ops.cfalse) jb.2)) s
      = (bs.enumFrom (n + 1)).foldl
          (fun t jb => t.set jb.1 (ops.bxor (t.getD jb.1 ops.cfalse) jb.2))
          (s.set n (ops.bxor (s.getD n ops.cfalse) b)) := rfl
    rw [hstep]
    by_cases hj : j = n
    · subst hj
      rw [absorbAux_frame ops _ _ _ _
          (fun e he => by have := List.le_fst_of_mem_enumFrom he; omega),
        getD_set_self _ _ h3]
      simp
    · have hlt : n < j := by omega
      rw [ih (n + 1) _ j (by omega) (by simp at h2 ⊢; omega)
          (by rw [List.length_set]; exact h3),
        getD_set_ne _ _ hj]
      obtain ⟨k, hk⟩ : ∃ k, j - n = k + 1 := ⟨j - n - 1, by omega⟩
      rw [hk, show j - (n + 1) = k from by omega, List.getD_cons_succ]

/-- `absorbBlock` XORs block bit `j` into state bit `j` for every in-range
`j`. -/
theorem absorbBlock_getD (s block : List α) (j : Nat) (h1 : j < block.length)
    (h2 : j < s.length) :
    (absorbBlock ops s block).getD j ops.cfalse
      = ops.bxor (s.getD j ops.cfalse) (block.getD j ops.cfalse) := by
  exact absorbAux_getD ops block 0 s j (Nat.zero_le j) (by omega) h2

/-- `absorbBlock` leaves every state bit at an index at or beyond the block
length unchanged. -/
theorem absorbBlock_frame (s block : List α) (j : Nat) (h : block.length ≤ j) (d : α) :
    (absorbBlock ops s block).getD j d = s.getD j d := by
  exact absorbAux_frame ops _ _ _ _
    (fun e he => by have := List.fst_lt_of_mem_enum he; omega)

theorem absorbBlock_length (s block : List α) :
    (absorbBlock ops s block).length = s.length :=
  absorbAux_len ops _ _

/-- The absorb fold performs exactly one permutation call per padded block. -/
theorem absorb_count (round_constants : List (List α)) (rotl : List Nat) :
    ∀ (blocks : List (List α)) (s : List α),
      (absorb ops round_constants rotl s blocks).2 = blocks.length := by
  have general : ∀ (blocks : List (List α)) (p : List α × Nat),
      (blocks.foldl
        (fun p block =>
          (permutation_f ops (absorbBlock ops p.1 block) round_constants rotl, p.2 + 1))
        p).2 = p.2 + blocks.length := by
    intro blocks
    induction blocks with
    | nil => intro p; simp
    | cons b bs ih => intro p; rw [List.foldl_cons, ih]; simp; omega
  intro blocks s
  have := general blocks (s, 0)
  simpa [absorb] using this

/-- Shape invariant of the lane matrix: 25 lanes of 64 wire bits each. -/
def lanesGood (a : List (List α)) : Prop :=
  a.length = 25 ∧ ∀ l ∈ a, l.length = 64

theorem lane_getD_length {a : List (List α)} (h : lanesGood a) {i : Nat} (hi : i < 25) :
    (a.getD i []).length = 64 :=
  h.2 _ (getD_mem [] (by have := h.1; omega))

theorem rotate_left_length (w : List α) (n : Nat) (h : w.length = 64) :
    (rotate_left w n).length = 64 := by
  simp [rotate_left]
  omega

theorem lxor_length (u v : List α) (hu : u.length = 64) (hv : v.length = 64) :
    (lxor ops u v).length = 64 := by
  simp [lxor, hu, hv]

theorem thetaC_getD {a : List (List α)} (h : lanesGood a) {x : Nat} (hx : x < 5) :
    (thetaC ops a).getD x []
      = lxor ops
          (lxor ops
            (lxor ops (lxor ops (a.getD x []) (a.getD (x + 5) [])) (a.getD (x + 10) []))
            (a.getD (x + 15) []))
          (a.getD (x + 20) []) := by
  rw [thetaC, List.getD_eq_getElem?_getD, List.getElem?_map, List.getElem?_range hx]
  rfl

theorem thetaC_good {a : List (List α)} (h : lanesGood a) :
    (thetaC ops a).length = 5 ∧ ∀ x < 5, ((thetaC ops a).getD x []).length = 64 := by
  refine ⟨by simp [thetaC], fun x hx => ?_⟩
  rw [thetaC_getD ops h hx]
  exact lxor_length ops _ _
    (lxor_length ops _ _
      (lxor_length ops _ _
        (lxor_length ops _ _ (lane_getD_length h (by omega)) (lane_getD_length h (by omega)))
        (lane_getD_length h (by omega)))
      (lane_getD_length h (by omega)))
    (lane_getD_length h (by omega))

theorem thetaD_getD (c : List (List α)) {x : Nat} (hx : x < 5) :
    (thetaD ops c).getD x []
      = lxor ops (c.getD ((x + 4) % 5) []) (rotate_left (c.getD ((x + 1) % 5) []) 63) := by
  rw [thetaD, List.getD_eq_getElem?_getD, List.getElem?_map, List.getElem?_range hx]
  rfl

theorem theta_getD {a : List (List α)} (h : lanesGood a) {x y : Nat} (hx : x < 5)
    (hy : y < 5) :
    (theta ops a).getD (x + 5 * y) []
      = lxor ops (a.getD (x + 5 * y) []) ((thetaD ops (thetaC ops a)).getD x []) := by
  have hidx : ∀ z w : Nat, z < 5 → w < 5 →
      (theta ops a).getD (z + 5 * w) []
        = lxor ops (a.getD (z + 5 * w) []) ((thetaD ops (thetaC ops a)).getD z []) := by
    intro z w hz hw
    interval_cases w <;> interval_cases z <;>
      simp [theta, List.range_succ, List.getD_eq_getElem?_getD]
  exact hidx x y hx hy

theorem theta_good {a : List (List α)} (h : lanesGood a) : lanesGood (theta ops a) := by
  constructor
  · simp [theta, List.range_succ]
  · intro l hl
    rw [theta] at hl
    rcases List.mem_flatten.mp hl with ⟨row, hrow, hlrow⟩
    rcases List.mem_map.mp hrow with ⟨y, hy, rfl⟩
    rcases List.mem_map.mp hlrow with ⟨x, hx, rfl⟩
    rw [List.mem_range] at hx hy
    refine lxor_length ops _ _ (h.2 _ (getD_mem [] (by have := h.1; omega))) ?_
    rw [thetaD_getD ops _ hx]
    refine lxor_length ops _ _ ?_ (rotate_left_length _ _ ?_)
    · exact (thetaC_good ops h).2 _ (by omega)
    · exact (thetaC_good ops h).2 _ (by omega)

theorem rhoPi_length (a1 : List (List α)) (rotl : List Nat) :
    (rhoPi a1 rotl).length = a1.length :=
  foldl_set_length _ _ _ _

theorem rhoPi_good {a1 : List (List α)} (h : lanesGood a1) (rotl : List Nat) :
    lanesGood (rhoPi a1 rotl) := by
  refine ⟨by rw [rhoPi_length]; exact h.1, ?_⟩
  refine foldl_set_mem _ _ _ _ _ h.2 ?_
  intro p hp
  have hall : ∀ q ∈ piPairs, q.1 < 5 ∧ q.2 < 5 := by decide
  have hb : p.2 + 5 * p.1 < 25 := by have := hall p hp; omega
  exact rotate_left_length _ _ (h.2 _ (getD_mem [] (by have := h.1; omega)))

theorem chi_getD {a2 : List (List α)} {x y : Nat} (hx : x < 5) (hy : y < 5) :
    (chi ops a2).getD (x + 5 * y) []
      = lxor ops (a2.getD (x + 5 * y) [])
          (land ops (lnot ops (a2.getD ((x + 1) % 5 + 5 * y) []))
            (a2.getD ((x + 2) % 5 + 5 * y) [])) := by
  interval_cases y <;> interval_cases x <;>
    simp [chi, List.range_succ, List.getD_eq_getElem?_getD]

theorem land_length (u v : List α) (hu : u.length = 64) (hv : v.length = 64) :
    (land ops u v).length = 64 := by
  simp [land, hu, hv]

theorem lnot_length (u : List α) (hu : u.length = 64) : (lnot ops u).length = 64 := by
  simp [lnot, hu]

theorem chi_good {a2 : List (List α)} (h : lanesGood a2) : lanesGood (chi ops a2) := by
  constructor
  · simp [chi, List.range_succ]
  · intro l hl
    rw [chi] at hl
    rcases List.mem_flatten.mp hl with ⟨row, hrow, hlrow⟩
    rcases List.mem_map.mp hrow with ⟨y, hy, rfl⟩
    rcases List.mem_map.mp hlrow with ⟨x, hx, rfl⟩
    rw [List.mem_range] at hx hy
    refine lxor_length ops _ _ (lane_getD_length h (by omega)) ?_
    refine land_length ops _ _ (lnot_length ops _ (lane_getD_length h ?_))
      (lane_getD_length h ?_)
    · have := Nat.mod_lt (x + 1) (show 0 < 5 by omega); omega
    · have := Nat.mod_lt (x + 2) (show 0 < 5 by omega); omega

theorem iota_good {a3 : List (List α)} (h : lanesGood a3) {rc : List α}
    (hrc : rc.length = 64) : lanesGood (iota ops a3 rc) := by
  refine ⟨by rw [iota, List.length_set]; exact h.1, ?_⟩
  intro l hl
  rcases List.mem_or_eq_of_mem_set hl with hl | rfl
  · exact h.2 l hl
  · exact lxor_length ops _ _ (lane_getD_length h (show (0:Nat) < 25 by omega)) hrc

theorem round_good {a : List (List α)} (h : lanesGood a) {rc : List α}
    (hrc : rc.length = 64) (rotl : List Nat) : lanesGood (round ops a rc rotl) :=
  iota_good ops (chi_good ops (rhoPi_good (theta_good ops h) rotl)) hrc

theorem lanesGood_flatten_length {a : List (List α)} (h : lanesGood a) :
    a.flatten.length = 1600 := by
  have hmap : List.map List.length a = List.replicate (List.map List.length a).length 64 :=
    List.eq_replicate_of_mem (fun x hx => by
      rcases List.mem_map.mp hx with ⟨b, hb, rfl⟩
      exact h.2 b hb)
  rw [List.length_flatten, hmap, List.sum_replicate, smul_eq_mul, List.length_map, h.1]

theorem chunksOf_64_good {l : List α} (h : l.length = 1600) :
    lanesGood (chunksOf 64 l) := by
  have hd : (64 : Nat) ∣ l.length := by rw [h]; omega
  have hcount := chunksOf_count 64 (by omega) l hd
  exact ⟨by omega, chunksOf_length_mem 64 (by omega) l hd⟩

/-- The permutation preserves the state width of 1600 bits, provided every
round constant is a 64-bit lane. -/
theorem permutation_f_length {s : List α} (h : s.length = 1600)
    (round_constants : List (List α)) (rotl : List Nat)
    (hrc : ∀ rc ∈ round_constants, rc.length = 64) :
    (permutation_f ops s round_constants rotl).length = 1600 := by
  rw [permutation_f]
  refine lanesGood_flatten_length ?_
  have hfold : ∀ (rcs : List (List α)) (a : List (List α)), lanesGood a →
      (∀ rc ∈ rcs, rc.length = 64) →
      lanesGood (rcs.foldl (fun a rc => round ops a rc rotl) a) := by
    intro rcs
    induction rcs with
    | nil => intro a ha _; exact ha
    | cons rc rcs ih =>
      intro a ha hrcs
      rw [List.foldl_cons]
      exact ih _ (round_good ops ha (hrcs rc (List.mem_cons_self rc rcs)) rotl)
        (fun x hx => hrcs x (List.mem_cons_of_mem rc hx))
  exact hfold round_constants _ (chunksOf_64_good h) hrc

/-- The source's skip-and-take rotation, on a 64-bit lane, is the rotated
concatenation `drop n ++ take n`. -/
theorem rotate_left_drop_take (w : List α) (n : Nat) (hw : w.length = 64) (hn : n ≤ 64) :
    rotate_left w n = w.drop n ++ w.take n := by
  rw [rotate_left, List.take_append_eq_append_take,
    List.take_of_length_le (by rw [List.length_drop]; omega),
    show 64 - (w.drop n).length = n from by rw [List.length_drop]; omega]

/-- Little-endian bit `j` of `rotate_left w n` is bit `(j + n) % 64` of `w`:
the numeric value is rotated RIGHT by `n`. -/
theorem rotate_left_getD (w : List α) (n : Nat) (hw : w.length = 64) (hn : n < 64)
    {j : Nat} (hj : j < 64) (d : α) :
    (rotate_left w n).getD j d = w.getD ((j + n) % 64) d := by
  rw [rotate_left_drop_take w n hw (by omega)]
  by_cases hcase : j < 64 - n
  · rw [List.getD_eq_getElem?_getD,
      List.getElem?_append_left (by rw [List.length_drop]; omega),
      List.getElem?_drop,
      show n + j = (j + n) % 64 from by rw [Nat.mod_eq_of_lt (by omega)]; omega,
      ← List.getD_eq_getElem?_getD]
  · rw [List.getD_eq_getElem?_getD,
      List.getElem?_append_right (by rw [List.length_drop]; omega),
      List.getElem?_take, if_pos (by rw [List.length_drop]; omega),
      show j - (w.drop n).length = (j + n) % 64 from by
        rw [List.length_drop, hw, show (j + n) % 64 = j + n - 64 from by omega]; omega,
      ← List.getD_eq_getElem?_getD]

/-- Passing the complement `(64 - k) % 64` to the source's `rotate_left`
realizes the spec's true left rotation by `k`. -/
theorem rotate_left_complement (w : List α) (k : Nat) (hw : w.length = 64) (hk : k < 64) :
    rotate_left w ((64 - k) % 64) = rotl_spec w k := by
  have h2 : k % 64 = k := Nat.mod_eq_of_lt hk
  rw [rotl_spec, h2, rotate_left_drop_take w _ hw (Nat.le_of_lt (Nat.mod_lt _ (by omega)))]

/-- Pointwise characterization of the ρπ pass: the lane written at target index
`y + 5 * ((2x + 3y) % 5)` is the rotation of source lane `x + 5y`. -/
theorem rhoPi_getD (a1 : List (List α)) (rotl : List Nat) (ha : a1.length = 25)
    {x y : Nat} (hx : x < 5) (hy : y < 5) :
    (rhoPi a1 rotl).getD (y + (2 * x + 3 * y) % 5 * 5) []
      = rotate_left (a1.getD (x + 5 * y) []) (rotl.getD (x + 5 * y) 0) := by
  have hmem : (y, x) ∈ piPairs := by
    interval_cases x <;> interval_cases y <;> decide
  have hpw : piPairs.Pairwise
      (fun p q => p.1 + (2 * p.2 + 3 * p.1) % 5 * 5 ≠ q.1 + (2 * q.2 + 3 * q.1) % 5 * 5) := by
    decide
  have hbound : (y, x).1 + (2 * (y, x).2 + 3 * (y, x).1) % 5 * 5 < a1.length := by
    have hm : (2 * x + 3 * y) % 5 < 5 := Nat.mod_lt _ (by omega)
    rw [ha]; dsimp only; omega
  exact foldl_set_distinct
    (fun (yx : Nat × Nat) => yx.1 + (2 * yx.2 + 3 * yx.1) % 5 * 5)
    (fun yx => rotate_left (a1.getD (yx.2 + 5 * yx.1) []) (rotl.getD (yx.2 + 5 * yx.1) 0))
    [] piPairs a1 hpw (y, x) hmem hbound

/-- The absorb fold preserves the 1600-bit state width. -/
theorem absorb_length (rcs : List (List α)) (rotl : List Nat)
    (hrc : ∀ rc ∈ rcs, rc.length = 64) :
    ∀ (blocks : List (List α)) (s : List α), s.length = 1600 →
      (absorb ops rcs rotl s blocks).1.length = 1600 := by
  have general : ∀ (blocks : List (List α)) (p : List α × Nat), p.1.length = 1600 →
      ((blocks.foldl
        (fun p block =>
          (permutation_f ops (absorbBlock ops p.1 block) rcs rotl, p.2 + 1)) p).1.length)
        = 1600 := by
    intro blocks
    induction blocks with
    | nil => intro p hp; exact hp
    | cons b bs ih =>
      intro p hp
      rw [List.foldl_cons]
      refine ih _ ?_
      dsimp only
      exact permutation_f_length ops (by rw [absorbBlock_length]; exact hp) rcs rotl hrc
  intro blocks s hs
  exact general blocks (s, 0) hs

theorem squeezeLoop_stop (rcs : List (List α)) (rotl : List Nat) (variant bitrate : Nat)
    (fuel : Nat) (s z : List α) (h : variant ≤ z.length) :
    squeezeLoop ops rcs rotl variant bitrate fuel s z = (z, 0) := by
  cases fuel with
  | zero => rfl
  | succ f => rw [squeezeLoop, if_neg (by omega)]

theorem squeezeLoop_step (rcs : List (List α)) (rotl : List Nat) (variant bitrate : Nat)
    (fuel : Nat) (s z : List α) (h : z.length < variant) :
    squeezeLoop ops rcs rotl variant bitrate (fuel + 1) s z
      = ((squeezeLoop ops rcs rotl variant bitrate fuel (permutation_f ops s rcs rotl)
            (z ++ (permutation_f ops s rcs rotl).take bitrate)).1,
         (squeezeLoop ops rcs rotl variant bitrate fuel (permutation_f ops s rcs rotl)
            (z ++ (permutation_f ops s rcs rotl).take bitrate)).2 + 1) := by
  rw [squeezeLoop, if_pos h]

/-- With positive bitrate, 1600-bit state, 64-bit round constants, and fuel at
least the remaining deficit, the squeeze loop reaches the target length. -/
theorem squeezeLoop_len (rcs : List (List α)) (rotl : List Nat) (variant bitrate : Nat)
    (hr : 0 < bitrate) (hble : bitrate ≤ 1600)
    (hrc : ∀ rc ∈ rcs, rc.length = 64) :
    ∀ (k fuel : Nat) (s z : List α), s.length = 1600 → variant - z.length ≤ k → k ≤ fuel →
      variant ≤ (squeezeLoop ops rcs rotl variant bitrate fuel s z).1.length := by
  intro k
  induction k with
  | zero =>
    intro fuel s z hs hk _
    rw [squeezeLoop_stop ops rcs rotl variant bitrate fuel s z (by omega)]
    show variant ≤ z.length
    omega
  | succ k ih =>
    intro fuel s z hs hk hfuel
    by_cases hlt : z.length < variant
    · obtain ⟨f, rfl⟩ : ∃ f, fuel = f + 1 := ⟨fuel - 1, by omega⟩
      rw [squeezeLoop_step ops rcs rotl variant bitrate f s z hlt]
      have hs2 : (permutation_f ops s rcs rotl).length = 1600 :=
        permutation_f_length ops hs rcs rotl hrc
      have hz2 : (z ++ (permutation_f ops s rcs rotl).take bitrate).length
          = z.length + bitrate := by
        simp [List.length_append, List.length_take, hs2]; omega
      exact ih f _ _ hs2 (by omega) (by omega)
    · rw [squeezeLoop_stop ops rcs rotl variant bitrate fuel s z (by omega)]
      show variant ≤ z.length
      omega

/-- One extra bitrate of target: the longer squeeze performs exactly one more
permutation call and agrees with the shorter squeeze on its first `variant`
bits, once the shorter loop has stopped. -/
theorem squeezeLoop_lockstep_base (rcs : List (List α)) (rotl : List Nat)
    (variant bitrate : Nat) (hr : 0 < bitrate) (hble : bitrate ≤ 1600)
    (hrc : ∀ rc ∈ rcs, rc.length = 64) (f1 f2 : Nat) (s z : List α)
    (hs : s.length = 1600) (hge : variant ≤ z.length) (hzlt : z.length < variant + bitrate)
    (hf2 : 1 ≤ f2) :
    (squeezeLoop ops rcs rotl (variant + bitrate) bitrate f2 s z).2
        = (squeezeLoop ops rcs rotl variant bitrate f1 s z).2 + 1
      ∧ (squeezeLoop ops rcs rotl (variant + bitrate) bitrate f2 s z).1.take variant
        = (squeezeLoop ops rcs rotl variant bitrate f1 s z).1.take variant := by
  obtain ⟨g, rfl⟩ : ∃ g, f2 = g + 1 := ⟨f2 - 1, by omega⟩
  have hs2 : (permutation_f ops s rcs rotl).length = 1600 :=
    permutation_f_length ops hs rcs rotl hrc
  have hz2 : (z ++ (permutation_f ops s rcs rotl).take bitrate).length
      = z.length + bitrate := by
    simp [List.length_append, List.length_take, hs2]; omega
  rw [squeezeLoop_stop ops rcs rotl variant bitrate f1 s z hge,
    squeezeLoop_step ops rcs rotl (variant + bitrate) bitrate g s z (by omega),
    squeezeLoop_stop ops rcs rotl (variant + bitrate) bitrate g _ _ (by omega)]
  dsimp only
  constructor
  · rfl
  · rw [List.take_append_of_le_length hge]

/-- Lockstep run of the squeeze loop at targets `variant` and
`variant + bitrate`: one extra permutation call and a stable `variant`-bit
prefix, by induction on the remaining deficit. -/
theorem squeezeLoop_lockstep (rcs : List (List α)) (rotl : List Nat)
    (variant bitrate : Nat) (hv : 1 ≤ variant) (hr : 0 < bitrate) (hble : bitrate ≤ 1600)
    (hrc : ∀ rc ∈ rcs, rc.length = 64) :
    ∀ (k f1 f2 : Nat) (s z : List α), s.length = 1600 → z.length < variant + bitrate →
      variant - z.length ≤ k → k ≤ f1 → variant + bitrate - z.length ≤ f2 →
      (squeezeLoop ops rcs rotl (variant + bitrate) bitrate f2 s z).2
          = (squeezeLoop ops rcs rotl variant bitrate f1 s z).2 + 1
        ∧ (squeezeLoop ops rcs rotl (variant + bitrate) bitrate f2 s z).1.take variant
          = (squeezeLoop ops rcs rotl variant bitrate f1 s z).1.take variant := by
  intro k
  induction k with
  | zero =>
    intro f1 f2 s z hs hzlt hk hf1 hf2
    exact squeezeLoop_lockstep_base ops rcs rotl variant bitrate hr hble hrc f1 f2 s z hs
      (by omega) hzlt (by omega)
  | succ k ih =>
    intro f1 f2 s z hs hzlt hk hf1 hf2
    by_cases hlt : z.length < variant
    · obtain ⟨g1, rfl⟩ : ∃ g, f1 = g + 1 := ⟨f1 - 1, by omega⟩
      obtain ⟨g2, rfl⟩ : ∃ g, f2 = g + 1 := ⟨f2 - 1, by omega⟩
      have hs2 : (permutation_f ops s rcs rotl).length = 1600 :=
        permutation_f_length ops hs rcs rotl hrc
      have hz2 : (z ++ (permutation_f ops s rcs rotl).take bitrate).length
          = z.length + bitrate := by
        simp [List.length_append, List.length_take, hs2]; omega
      rw [squeezeLoop_step ops rcs rotl variant bitrate g1 s z hlt,
        squeezeLoop_step ops rcs rotl (variant + bitrate) bitrate g2 s z (by omega)]
      have hrec := ih g1 g2 (permutation_f ops s rcs rotl)
        (z ++ (permutation_f ops s rcs rotl).take bitrate) hs2 (by omega) (by omega)
        (by omega) (by omega)
      dsimp only
      exact ⟨by rw [hrec.1], hrec.2⟩
    · exact squeezeLoop_lockstep_base ops rcs rotl variant bitrate hr hble hrc f1 f2 s z hs
        (by omega) hzlt (by omega)

/-- A homomorphism of wire algebras: a projection commuting with the constants
and the boolean operations.  `Wire.val` is the instance used for representation
independence. -/
structure BoolHom {γ : Type} (ops : BoolOps α) (ops2 : BoolOps γ) (f : α → γ) : Prop where
  map_cfalse : f ops.cfalse = ops2.cfalse
  map_ctrue : f ops.ctrue = ops2.ctrue
  map_bxor : ∀ a b, f (ops.bxor a b) = ops2.bxor (f a) (f b)
  map_band : ∀ a b, f (ops.band a b) = ops2.band (f a) (f b)
  map_bnot : ∀ a, f (ops.bnot a) = ops2.bnot (f a)

variable {γ : Type} {ops2 : BoolOps γ} {f : α → γ}

theorem map_getD_bit (s : List α) (i : Nat) (d : α) :
    (s.map f).getD i (f d) = f (s.getD i d) := by
  rcases Nat.lt_or_ge i s.length with h | h
  · rw [List.getD_eq_getElem _ _ (by rw [List.length_map]; exact h),
      List.getD_eq_getElem _ _ h, List.getElem_map]
  · rw [List.getD_eq_default _ _ (by rw [List.length_map]; exact h),
      List.getD_eq_default _ _ h]

theorem map_getD_lane (a : List (List α)) (i : Nat) :
    (a.map (List.map f)).getD i [] = (a.getD i []).map f := by
  have h := map_getD_bit (f := List.map f) a i []
  simpa using h

theorem map_lxor (hf : BoolHom ops ops2 f) :
    ∀ (u v : List α), (lxor ops u v).map f = lxor ops2 (u.map f) (v.map f) := by
  intro u
  induction u with
  | nil => intro v; rfl
  | cons a u ih =>
    intro v
    cases v with
    | nil => rfl
    | cons b v =>
      show (ops.bxor a b :: lxor ops u v).map f = _
      rw [List.map_cons, ih v, hf.map_bxor]
      rfl

theorem map_land (hf : BoolHom ops ops2 f) :
    ∀ (u v : List α), (land ops u v).map f = land ops2 (u.map f) (v.map f) := by
  intro u
  induction u with
  | nil => intro v; rfl
  | cons a u ih =>
    intro v
    cases v with
    | nil => rfl
    | cons b v =>
      show (ops.band a b :: land ops u v).map f = _
      rw [List.map_cons, ih v, hf.map_band]
      rfl

theorem map_lnot (hf : BoolHom ops ops2 f) (u : List α) :
    (lnot ops u).map f = lnot ops2 (u.map f) := by
  rw [lnot, lnot, List.map_map, List.map_map]
  exact List.map_congr_left (fun a _ => hf.map_bnot a)

theorem map_rotate_left (w : List α) (n : Nat) :
    (rotate_left w n).map f = rotate_left (w.map f) n := by
  simp [rotate_left, List.map_take, List.map_append, List.map_drop]

theorem map_thetaC (hf : BoolHom ops ops2 f) (a : List (List α)) :
    (thetaC ops a).map (List.map f) = thetaC ops2 (a.map (List.map f)) := by
  rw [thetaC, thetaC, List.map_map]
  refine List.map_congr_left ?_
  intro x _
  show (lxor ops _ _).map f = _
  rw [map_lxor ops hf, map_lxor ops hf, map_lxor ops hf, map_lxor ops hf,
    map_getD_lane, map_getD_lane, map_getD_lane, map_getD_lane, map_getD_lane]

theorem map_thetaD (hf : BoolHom ops ops2 f) (c : List (List α)) :
    (thetaD ops c).map (List.map f) = thetaD ops2 (c.map (List.map f)) := by
  rw [thetaD, thetaD, List.map_map]
  refine List.map_congr_left ?_
  intro x _
  show (lxor ops _ _).map f = _
  rw [map_lxor ops hf, map_getD_lane, map_rotate_left, map_getD_lane]

theorem map_theta (hf : BoolHom ops ops2 f) (a : List (List α)) :
    (theta ops a).map (List.map f) = theta ops2 (a.map (List.map f)) := by
  rw [theta, theta, List.map_flatten, List.map_map]
  congr 1
  refine List.map_congr_left ?_
  intro y _
  show ((List.range 5).map _).map (List.map f) = (List.range 5).map _
  rw [List.map_map]
  refine List.map_congr_left ?_
  intro x _
  show (lxor ops _ _).map f = _
  rw [map_lxor ops hf, map_getD_lane, ← map_thetaC ops hf, ← map_thetaD ops hf, map_getD_lane]

theorem map_rhoPi (a1 : List (List α)) (rotl : List Nat) :
    (rhoPi a1 rotl).map (List.map f) = rhoPi (a1.map (List.map f)) rotl := by
  rw [rhoPi, rhoPi]
  have general : ∀ (ps : List (Nat × Nat)) (l : List (List α)),
      (ps.foldl (fun a2 yx => a2.set (yx.1 + (2 * yx.2 + 3 * yx.1) % 5 * 5)
          (rotate_left (a1.getD (yx.2 + 5 * yx.1) []) (rotl.getD (yx.2 + 5 * yx.1) 0))) l).map
          (List.map f)
        = ps.foldl (fun a2 yx => a2.set (yx.1 + (2 * yx.2 + 3 * yx.1) % 5 * 5)
            (rotate_left ((a1.map (List.map f)).getD (yx.2 + 5 * yx.1) [])
              (rotl.getD (yx.2 + 5 * yx.1) 0))) (l.map (List.map f)) := by
    intro ps
    induction ps with
    | nil => intro l; rfl
    | cons p ps ih =>
      intro l
      rw [List.foldl_cons, List.foldl_cons, ih, List.map_set, map_rotate_left, map_getD_lane]
  exact general piPairs a1

theorem map_chi (hf : BoolHom ops ops2 f) (a2 : List (List α)) :
    (chi ops a2).map (List.map f) = chi ops2 (a2.map (List.map f)) := by
  rw [chi, chi, List.map_flatten, List.map_map]
  congr 1
  refine List.map_congr_left ?_
  intro y _
  show ((List.range 5).map _).map (List.map f) = (List.range 5).map _
  rw [List.map_map]
  refine List.map_congr_left ?_
  intro x _
  show (lxor ops _ _).map f = _
  rw [map_lxor ops hf, map_land ops hf, map_lnot ops hf,
    map_getD_lane, map_getD_lane, map_getD_lane]

theorem map_iota (hf : BoolHom ops ops2 f) (a3 : List (List α)) (rc : List α) :
    (iota ops a3 rc).map (List.map f) = iota ops2 (a3.map (List.map f)) (rc.map f) := by
  rw [iota, iota, List.map_set, map_lxor ops hf, map_getD_lane]

theorem map_round (hf : BoolHom ops ops2 f) (a : List (List α)) (rc : List α)
    (rotl : List Nat) :
    (round ops a rc rotl).map (List.map f)
      = round ops2 (a.map (List.map f)) (rc.map f) rotl := by
  rw [round, round, map_iota ops hf, map_chi ops hf, map_rhoPi, map_theta ops hf]

theorem map_chunksAux (g : α → γ) :
    ∀ (fuel r : Nat) (l : List α),
      (chunksAux r fuel l).map (List.map g) = chunksAux r fuel (l.map g) := by
  intro fuel
  induction fuel with
  | zero => intro r l; cases l <;> rfl
  | succ n ih =>
    intro r l
    cases l with
    | nil => rfl
    | cons a t =>
      show ((a :: t).take r :: chunksAux r n ((a :: t).drop r)).map (List.map g)
        = ((a :: t).map g).take r :: chunksAux r n (((a :: t).map g).drop r)
      rw [List.map_cons, ih, List.map_take, List.map_drop]

theorem map_chunksOf (g : α → γ) (r : Nat) (l : List α) :
    (chunksOf r l).map (List.map g) = chunksOf r (l.map g) := by
  rw [chunksOf, chunksOf, List.length_map, map_chunksAux]

theorem map_permutation_f (hf : BoolHom ops ops2 f) (s : List α) (rcs : List (List α))
    (rotl : List Nat) :
    (permutation_f ops s rcs rotl).map f
      = permutation_f ops2 (s.map f) (rcs.map (List.map f)) rotl := by
  rw [permutation_f, permutation_f, List.map_flatten, ← map_chunksOf f]
  congr 1
  have general : ∀ (rcs : List (List α)) (a : List (List α)),
      (rcs.foldl (fun a rc => round ops a rc rotl) a).map (List.map f)
        = (rcs.map (List.map f)).foldl (fun a rc => round ops2 a rc rotl)
            (a.map (List.map f)) := by
    intro rcs
    induction rcs with
    | nil => intro a; rfl
    | cons rc rcs ih =>
      intro a
      rw [List.map_cons, List.foldl_cons, List.foldl_cons, ih, map_round ops hf]
  exact general rcs _

theorem map_absorbBlock (hf : BoolHom ops ops2 f) :
    ∀ (block : List α) (s : List α),
      (absorbBlock ops s block).map f = absorbBlock ops2 (s.map f) (block.map f) := by
  have general : ∀ (block : List α) (n : Nat) (s : List α),
      (((block.enumFrom n).foldl
          (fun t jb => t.set jb.1 (ops.bxor (t.getD jb.1 ops.cfalse) jb.2)) s).map f)
        = ((block.map f).enumFrom n).foldl
            (fun t jb => t.set jb.1 (ops2.bxor (t.getD jb.1 ops2.cfalse) jb.2)) (s.map f) := by
    intro block
    induction block with
    | nil => intro n s; rfl
    | cons b bs ih =>
      intro n s
      have hL : ((b :: bs).enumFrom n).foldl
          (fun t jb => t.set jb.1 (ops.bxor (t.getD jb.1 ops.cfalse) jb.2)) s
        = (bs.enumFrom (n + 1)).foldl
            (fun t jb => t.set jb.1 (ops.bxor (t.getD jb.1 ops.cfalse) jb.2))
            (s.set n (ops.bxor (s.getD n ops.cfalse) b)) := rfl
      have hR : (((b :: bs).map f).enumFrom n).foldl
          (fun t jb => t.set jb.1 (ops2.bxor (t.getD jb.1 ops2.cfalse) jb.2)) (s.map f)
        = ((bs.map f).enumFrom (n + 1)).foldl
            (fun t jb => t.set jb.1 (ops2.bxor (t.getD jb.1 ops2.cfalse) jb.2))
            ((s.map f).set n (ops2.bxor ((s.map f).getD n ops2.cfalse) (f b))) := rfl
      rw [hL, hR, ih]
      congr 1
      rw [List.map_set, hf.map_bxor, ← hf.map_cfalse, map_getD_bit]
  intro block s
  exact general block 0 s

theorem map_absorb (hf : BoolHom ops ops2 f) (rcs : List (List α)) (rotl : List Nat) :
    ∀ (blocks : List (List α)) (s : List α),
      ((absorb ops rcs rotl s blocks).1.map f, (absorb ops rcs rotl s blocks).2)
        = absorb ops2 (rcs.map (List.map f)) rotl (s.map f) (blocks.map (List.map f)) := by
  have general : ∀ (blocks : List (List α)) (sl : List α) (n : Nat),
      ((blocks.foldl
          (fun p block =>
            (permutation_f ops (absorbBlock ops p.1 block) rcs rotl, p.2 + 1)) (sl, n)).1.map f,
       (blocks.foldl
          (fun p block =>
            (permutation_f ops (absorbBlock ops p.1 block) rcs rotl, p.2 + 1)) (sl, n)).2)
        = (blocks.map (List.map f)).foldl
            (fun p block =>
              (permutation_f ops2 (absorbBlock ops2 p.1 block) (rcs.map (List.map f)) rotl,
               p.2 + 1)) (sl.map f, n) := by
    intro blocks
    induction blocks with
    | nil => intro sl n; rfl
    | cons b bs ih =>
      intro sl n
      rw [List.map_cons, List.foldl_cons, List.foldl_cons]
      have hacc : (permutation_f ops (absorbBlock ops sl b) rcs rotl).map f
          = permutation_f ops2 (absorbBlock ops2 (sl.map f) (b.map f))
              (rcs.map (List.map f)) rotl := by
        rw [map_permutation_f ops hf, map_absorbBlock ops hf]
      have := ih (permutation_f ops (absorbBlock ops sl b) rcs rotl) (n + 1)
      rw [hacc] at this
      exact this
  intro blocks s
  exact general blocks s 0

theorem map_squeezeLoop (hf : BoolHom ops ops2 f) (rcs : List (List α)) (rotl : List Nat)
    (variant bitrate : Nat) :
    ∀ (fuel : Nat) (s z : List α),
      ((squeezeLoop ops rcs rotl variant bitrate fuel s z).1.map f,
       (squeezeLoop ops rcs rotl variant bitrate fuel s z).2)
        = squeezeLoop ops2 (rcs.map (List.map f)) rotl variant bitrate fuel
            (s.map f) (z.map f) := by
  intro fuel
  induction fuel with
  | zero => intro s z; rfl
  | succ n ih =>
    intro s z
    by_cases h : z.length < variant
    · rw [squeezeLoop_step ops rcs rotl variant bitrate n s z h,
        squeezeLoop_step ops2 (rcs.map (List.map f)) rotl variant bitrate n (s.map f)
          (z.map f) (by rw [List.length_map]; exact h)]
      have heq : (z ++ (permutation_f ops s rcs rotl).take bitrate).map f
          = z.map f ++ (permutation_f ops2 (s.map f) (rcs.map (List.map f)) rotl).take bitrate := by
        rw [List.map_append, List.map_take, map_permutation_f ops hf]
      have hrec := ih (permutation_f ops s rcs rotl)
        (z ++ (permutation_f ops s rcs rotl).take bitrate)
      rw [map_permutation_f ops hf, heq] at hrec
      have h1 := congrArg Prod.fst hrec
      have h2 := congrArg Prod.snd hrec
      dsimp only at h1 h2 ⊢
      rw [h1, h2]
    · rw [squeezeLoop_stop ops rcs rotl variant bitrate _ s z (by omega),
        squeezeLoop_stop ops2 (rcs.map (List.map f)) rotl variant bitrate _ (s.map f)
          (z.map f) (by rw [List.length_map]; omega)]

theorem isEmpty_map (g : α → γ) (l : List α) : (l.map g).isEmpty = l.isEmpty := by
  cases l <;> rfl

theorem map_pad_keccak (hf : BoolHom ops ops2 f) (input : List α) (r : Nat) :
    (pad_keccak ops input r).map (fun blocks => blocks.map (List.map f))
      = pad_keccak ops2 (input.map f) r := by
  rw [pad_keccak, pad_keccak]
  by_cases h : r = 0
  · rw [if_pos h, if_pos h]; rfl
  · rw [if_neg h, if_neg h]
    show Except.ok _ = Except.ok _
    show Except.ok (List.map (List.map f) (chunksOf r _)) = _
    rw [map_chunksOf f]
    congr 2
    simp only [List.map_append, List.map_replicate, List.map_cons, List.map_nil,
      List.length_append, List.length_replicate, List.length_map, List.length_cons,
      List.length_nil, hf.map_cfalse, hf.map_ctrue]

theorem map_pad_sha3 (hf : BoolHom ops ops2 f) (input : List α) (r : Nat) :
    (pad_sha3 ops input r).map (fun blocks => blocks.map (List.map f))
      = pad_sha3 ops2 (input.map f) r := by
  rw [pad_sha3, pad_sha3]
  by_cases h : r ≤ 1
  · rw [if_pos h, if_pos h]; rfl
  · rw [if_neg h, if_neg h]
    show Except.ok _ = Except.ok _
    show Except.ok (List.map (List.map f) (chunksOf r _)) = _
    rw [map_chunksOf f]
    congr 2
    simp only [List.map_append, List.map_replicate, List.map_cons, List.map_nil,
      List.length_append, List.length_replicate, List.length_map, List.length_cons,
      List.length_nil, hf.map_cfalse, hf.map_ctrue]

/-- The absorb-and-squeeze tail of `hash` commutes with a wire-algebra
homomorphism. -/
theorem map_hash_tail (hf : BoolHom ops ops2 f) (variant bitrate : Nat)
    (rcs : List (List α)) (rotl : List Nat) (blocks : List (List α)) :
    (((squeezeLoop ops rcs rotl variant bitrate variant
          (absorb ops rcs rotl (List.replicate 1600 ops.cfalse) blocks).1
          ((absorb ops rcs rotl (List.replicate 1600 ops.cfalse) blocks).1.take
            bitrate)).1.take variant).map f,
     (absorb ops rcs rotl (List.replicate 1600 ops.cfalse) blocks).2
       + (squeezeLoop ops rcs rotl variant bitrate variant
            (absorb ops rcs rotl (List.replicate 1600 ops.cfalse) blocks).1
            ((absorb ops rcs rotl (List.replicate 1600 ops.cfalse) blocks).1.take
              bitrate)).2)
    = ((squeezeLoop ops2 (rcs.map (List.map f)) rotl variant bitrate variant
          (absorb ops2 (rcs.map (List.map f)) rotl (List.replicate 1600 ops2.cfalse)
            (blocks.map (List.map f))).1
          ((absorb ops2 (rcs.map (List.map f)) rotl (List.replicate 1600 ops2.cfalse)
            (blocks.map (List.map f))).1.take bitrate)).1.take variant,
       (absorb ops2 (rcs.map (List.map f)) rotl (List.replicate 1600 ops2.cfalse)
          (blocks.map (List.map f))).2
         + (squeezeLoop ops2 (rcs.map (List.map f)) rotl variant bitrate variant
              (absorb ops2 (rcs.map (List.map f)) rotl (List.replicate 1600 ops2.cfalse)
                (blocks.map (List.map f))).1
              ((absorb ops2 (rcs.map (List.map f)) rotl (List.replicate 1600 ops2.cfalse)
                (blocks.map (List.map f))).1.take bitrate)).2) := by
  have habs := map_absorb ops hf rcs rotl blocks (List.replicate 1600 ops.cfalse)
  rw [show (List.replicate 1600 ops.cfalse).map f = List.replicate 1600 ops2.cfalse from by
    rw [List.map_replicate, hf.map_cfalse]] at habs
  have habs1 := congrArg Prod.fst habs
  have habs2 := congrArg Prod.snd habs
  dsimp only at habs1 habs2
  have hsq := map_squeezeLoop ops hf rcs rotl variant bitrate variant
    (absorb ops rcs rotl (List.replicate 1600 ops.cfalse) blocks).1
    ((absorb ops rcs rotl (List.replicate 1600 ops.cfalse) blocks).1.take bitrate)
  rw [habs1,
    show ((absorb ops rcs rotl (List.replicate 1600 ops.cfalse) blocks).1.take bitrate).map f
      = (absorb ops2 (rcs.map (List.map f)) rotl (List.replicate 1600 ops2.cfalse)
          (blocks.map (List.map f))).1.take bitrate from by
      rw [List.map_take, habs1]] at hsq
  have hsq1 := congrArg Prod.fst hsq
  have hsq2 := congrArg Prod.snd hsq
  dsimp only at hsq1 hsq2
  rw [Prod.mk.injEq]
  refine ⟨?_, ?_⟩
  · rw [List.map_take, hsq1]
  · rw [habs2, hsq2]

/-- The fundamental functoriality of the embedded hash: projecting every wire
through a homomorphism of wire algebras commutes with the whole computation. -/
theorem map_hash (hf : BoolHom ops ops2 f) (type variant : Nat) (input : List α)
    (rcs : List (List α)) (rotl : List Nat) :
    (hash ops type variant input rcs rotl).map (fun p => (p.1.map f, p.2))
      = hash ops2 type variant (input.map f) (rcs.map (List.map f)) rotl := by
  rw [hash.eq_def, hash.eq_def]
  by_cases h1 : 1600 ≤ (200 - variant / 4) * 8
  · rw [if_pos h1, if_pos h1]; rfl
  · rw [if_neg h1, if_neg h1]
    by_cases h2 : input.isEmpty
    · rw [if_pos h2, if_pos (by rw [isEmpty_map]; exact h2)]; rfl
    · rw [if_neg h2, if_neg (by rw [isEmpty_map]; exact h2)]
      rcases type with _ | _ | type
      · have hpk := map_pad_keccak ops hf input ((200 - variant / 4) * 8)
        cases hpad : pad_keccak ops input ((200 - variant / 4) * 8) with
        | error e =>
          rw [hpad] at hpk
          rw [← hpk]
          rfl
        | ok blocks =>
          rw [hpad] at hpk
          rw [← hpk]
          show Except.ok _ = Except.ok _
          exact congrArg Except.ok
            (map_hash_tail ops hf variant ((200 - variant / 4) * 8) rcs rotl blocks)
      · have hpk := map_pad_sha3 ops hf input ((200 - variant / 4) * 8)
        cases hpad : pad_sha3 ops input ((200 - variant / 4) * 8) with
        | error e =>
          rw [hpad] at hpk
          rw [← hpk]
          rfl
        | ok blocks =>
          rw [hpad] at hpk
          rw [← hpk]
          show Except.ok _ = Except.ok _
          exact congrArg Except.ok
            (map_hash_tail ops hf variant ((200 - variant / 4) * 8) rcs rotl blocks)
      · rfl

theorem chi_length (a2 : List (List α)) : (chi ops a2).length = 25 := by
  simp [chi, List.range_succ]

theorem mod_succ_zero {x r : Nat} (hr : 0 < r) (h : x % r = r - 1) : (x + 1) % r = 0 := by
  rcases Nat.eq_or_lt_of_le hr with h1 | h1
  · rw [← h1]
    exact Nat.mod_one _
  · rw [Nat.add_mod, h, Nat.mod_eq_of_lt h1, show r - 1 + 1 = r from by omega, Nat.mod_self]

/-- Shared tail shape of both padding functions: a base (byte-aligned input plus
domain suffix), the zero fill to `r - 1 (mod r)`, and the final one bit.  The
chunks all have length `r` and the total length is rate-aligned. -/
theorem pad_core_facts {α : Type} (ops : BoolOps α) (base : List α) (r : Nat) (hr : 0 < r) :
    (∀ b ∈ chunksOf r (base ++ List.replicate (zeroFill base.length r) ops.cfalse
        ++ [ops.ctrue]), b.length = r)
    ∧ (chunksOf r (base ++ List.replicate (zeroFill base.length r) ops.cfalse
        ++ [ops.ctrue])).flatten.length = base.length + zeroFill base.length r + 1
    ∧ (base.length + zeroFill base.length r + 1) % r = 0 := by
  have hz := zeroFill_spec base.length r hr
  have hmod : (base.length + zeroFill base.length r + 1) % r = 0 :=
    mod_succ_zero hr hz.1
  have hdvd : r ∣ (base.length + zeroFill base.length r + 1) :=
    Nat.dvd_of_mod_eq_zero hmod
  have hlen : (base ++ List.replicate (zeroFill base.length r) ops.cfalse
      ++ [ops.ctrue]).length = base.length + zeroFill base.length r + 1 := by
    simp only [List.length_append, List.length_replicate, List.length_cons,
      List.length_nil] <;> omega
  refine ⟨?_, ?_, hmod⟩
  · intro b hb
    exact chunksOf_length_mem r hr _ (by rw [hlen]; exact hdvd) b hb
  · rw [chunksOf_flatten r hr, hlen]

/-- C1: in every round of the permutation, the θ step computes, for each column
`x < 5`, `C[x]` as the XOR of the five lanes `a[x, 0..4]` of the column; then
`D[x] = C[(x-1) mod 5] ⊕ rotl(C[(x+1) mod 5], 1)` where `rotl` is the cyclic
LEFT rotation of the 64-bit lane by one position (the source realizes it as
`rotate_left(_, 63)`); and replaces every lane `a[x, y]` with `a[x, y] ⊕ D[x]`.
The round function is the composition `ι ∘ χ ∘ ρπ ∘ θ` of the embedded stages.
`(x - 1) mod 5` is written `(x + 4) % 5`. -/
theorem keccak_theta_spec {α : Type} (ops : BoolOps α) (a : List (List α))
    (h25 : a.length = 25) (h64 : ∀ l ∈ a, l.length = 64) {x y : Nat}
    (hx : x < 5) (hy : y < 5) :
    (thetaC ops a).getD x []
        = lxor ops
            (lxor ops
              (lxor ops (lxor ops (a.getD x []) (a.getD (x + 5) [])) (a.getD (x + 10) []))
              (a.getD (x + 15) []))
            (a.getD (x + 20) [])
      ∧ (thetaD ops (thetaC ops a)).getD x []
          = lxor ops ((thetaC ops a).getD ((x + 4) % 5) [])
              (rotl_spec ((thetaC ops a).getD ((x + 1) % 5) []) 1)
      ∧ (theta ops a).getD (x + 5 * y) []
          = lxor ops (a.getD (x + 5 * y) []) ((thetaD ops (thetaC ops a)).getD x [])
      ∧ ∀ (rc : List α) (rotl : List Nat),
          round ops a rc rotl = iota ops (chi ops (rhoPi (theta ops a) rotl)) rc := by
  refine ⟨thetaC_getD ops ⟨h25, h64⟩ hx, ?_, theta_getD ops ⟨h25, h64⟩ hx hy,
    fun rc rotl => rfl⟩
  rw [thetaD_getD ops (thetaC ops a) hx]
  have hc : ((thetaC ops a).getD ((x + 1) % 5) []).length = 64 :=
    (thetaC_good ops ⟨h25, h64⟩).2 _ (Nat.mod_lt _ (by omega))
  have h := rotate_left_complement ((thetaC ops a).getD ((x + 1) % 5) []) 1 hc (by omega)
  rw [show ((64:Nat) - 1) % 64 = 63 from rfl] at h
  rw [h]

/-- C1 witness: the θ action at `x = 1, y = 2` on the all-zero lane matrix. -/
theorem keccak_theta_spec_witness :
    (theta boolOps (List.replicate 25 (List.replicate 64 false))).getD (1 + 5 * 2) []
      = lxor boolOps ((List.replicate 25 (List.replicate 64 false)).getD (1 + 5 * 2) [])
          ((thetaD boolOps (thetaC boolOps (List.replicate 25 (List.replicate 64 false)))).getD
            1 []) :=
  (keccak_theta_spec boolOps (List.replicate 25 (List.replicate 64 false))
    (by simp) (fun l hl => by rw [List.eq_of_mem_replicate hl]; simp)
    (show (1:Nat) < 5 by omega) (show (2:Nat) < 5 by omega)).2.2.1

/-- C2: after θ, the combined ρπ pass writes `rotate_left(a1[x + 5y],
rotl[x + 5y])` (with the table of complemented offsets, a true left rotation by
the standard ρ offset) to lane index `y + 5 * ((2x + 3y) mod 5)` of the new
matrix; χ computes `a2[x + 5y] ⊕ ((¬a2[(x+1)%5 + 5y]) ∧ a2[(x+2)%5 + 5y])`,
reading all three operands from the ρπ output; ι XORs the round constant into
lane `(0,0)` only and leaves every other lane unchanged. -/
theorem keccak_rho_pi_chi_iota_spec {α : Type} (ops : BoolOps α) (a1 : List (List α))
    (tbl : List Nat) (h25 : a1.length = 25) (h64 : ∀ l ∈ a1, l.length = 64)
    {x y : Nat} (hx : x < 5) (hy : y < 5) :
    (rhoPi a1 tbl).getD (y + (2 * x + 3 * y) % 5 * 5) []
        = rotate_left (a1.getD (x + 5 * y) []) (tbl.getD (x + 5 * y) 0)
      ∧ rotate_left (a1.getD (x + 5 * y) []) (codeRotl.getD (x + 5 * y) 0)
          = rotl_spec (a1.getD (x + 5 * y) []) (rhoOffsets.getD (x + 5 * y) 0)
      ∧ (chi ops (rhoPi a1 tbl)).getD (x + 5 * y) []
          = lxor ops ((rhoPi a1 tbl).getD (x + 5 * y) [])
              (land ops (lnot ops ((rhoPi a1 tbl).getD ((x + 1) % 5 + 5 * y) []))
                ((rhoPi a1 tbl).getD ((x + 2) % 5 + 5 * y) []))
      ∧ (∀ rc : List α,
          (iota ops (chi ops (rhoPi a1 tbl)) rc).getD 0 []
            = lxor ops ((chi ops (rhoPi a1 tbl)).getD 0 []) rc)
      ∧ ∀ (rc : List α) (i : Nat), i ≠ 0 →
          (iota ops (chi ops (rhoPi a1 tbl)) rc).getD i []
            = (chi ops (rhoPi a1 tbl)).getD i [] := by
  refine ⟨rhoPi_getD a1 tbl h25 hx hy, ?_, chi_getD ops hx hy,
    fun rc => getD_set_self _ _ (by rw [chi_length]; omega),
    fun rc i hi => getD_set_ne _ _ hi⟩
  have hoff : rhoOffsets.getD (x + 5 * y) 0 < 64 := by
    interval_cases x <;> interval_cases y <;> decide
  have hcode : codeRotl.getD (x + 5 * y) 0 = (64 - rhoOffsets.getD (x + 5 * y) 0) % 64 := by
    interval_cases x <;> interval_cases y <;> rfl
  rw [hcode]
  exact rotate_left_complement _ _ (lane_getD_length ⟨h25, h64⟩ (by omega)) hoff

/-- C2 witness: the ρπ write for `x = 1, y = 0` on the all-zero lane matrix with
the complemented offset table. -/
theorem keccak_rho_pi_chi_iota_spec_witness :
    (rhoPi (List.replicate 25 (List.replicate 64 false)) codeRotl).getD
        (0 + (2 * 1 + 3 * 0) % 5 * 5) []
      = rotate_left ((List.replicate 25 (List.replicate 64 false)).getD (1 + 5 * 0) [])
          (codeRotl.getD (1 + 5 * 0) 0) :=
  (keccak_rho_pi_chi_iota_spec boolOps (List.replicate 25 (List.replicate 64 false))
    codeRotl (by simp) (fun l hl => by rw [List.eq_of_mem_replicate hl]; simp)
    (show (1:Nat) < 5 by omega) (show (0:Nat) < 5 by omega)).1

/-- C3: for every 64-bit lane `w` and every `n < 64`, little-endian bit `j` of
`rotate_left w n` is bit `(j + n) mod 64` of `w`; despite its name, the function
rotates the numeric value RIGHT by `n` (equivalently left by `64 - n`), so a
caller obtains a true left rotation by `k` exactly by passing `(64 - k) % 64`,
which is what the complemented ρ offset table must store. -/
theorem keccak_rotate_left_is_right_rotation {α : Type} (w : List α) (n : Nat) (d : α)
    (hw : w.length = 64) (hn : n < 64) :
    (∀ j, j < 64 → (rotate_left w n).getD j d = w.getD ((j + n) % 64) d)
      ∧ rotate_left w n = rotl_spec w ((64 - n) % 64)
      ∧ ∀ k, k < 64 → rotl_spec w k = rotate_left w ((64 - k) % 64) := by
  refine ⟨fun j hj => rotate_left_getD w n hw hn hj d, ?_,
    fun k hk => (rotate_left_complement w k hw hk).symm⟩
  have h := rotate_left_complement w ((64 - n) % 64) hw (Nat.mod_lt _ (by omega))
  rw [show (64 - (64 - n) % 64) % 64 = n from by omega] at h
  exact h

/-- C3 witness: bit 3 of a rotation by 7 on an all-false lane. -/
theorem keccak_rotate_left_is_right_rotation_witness :
    (rotate_left (List.replicate 64 false) 7).getD 3 false
      = (List.replicate 64 false).getD ((3 + 7) % 64) false :=
  (keccak_rotate_left_is_right_rotation (List.replicate 64 false) 7 false
    (by simp) (by omega)).1 3 (by omega)

/-- C4: for every non-empty input and every valid bitrate (positive multiple of
8 for Keccak-style, greater than 1 for SHA3-style), the padding functions
return blocks of exactly `r` bits whose concatenated length is a multiple of
`r`, strictly exceeds the input length, and exceeds it by at least 2 bits
(Keccak style) or at least 5 bits (SHA3 style). -/
theorem keccak_padding_growth {α : Type} (ops : BoolOps α) (input : List α) (r : Nat)
    (hne : input ≠ []) :
    (0 < r → 8 ∣ r → ∃ blocks, pad_keccak ops input r = .ok blocks
       ∧ (∀ b ∈ blocks, b.length = r)
       ∧ blocks.flatten.length % r = 0
       ∧ input.length < blocks.flatten.length
       ∧ input.length + 2 ≤ blocks.flatten.length)
    ∧ (1 < r → ∃ blocks, pad_sha3 ops input r = .ok blocks
       ∧ (∀ b ∈ blocks, b.length = r)
       ∧ blocks.flatten.length % r = 0
       ∧ input.length < blocks.flatten.length
       ∧ input.length + 5 ≤ blocks.flatten.length) := by
  constructor
  · intro hr _
    have hcore := pad_core_facts ops
      (input ++ List.replicate ((input.length + 7) / 8 * 8 - input.length) ops.cfalse
        ++ [ops.ctrue]) r hr
    have hblen : (input ++ List.replicate ((input.length + 7) / 8 * 8 - input.length)
        ops.cfalse ++ [ops.ctrue]).length
        = input.length + ((input.length + 7) / 8 * 8 - input.length) + 1 := by
      simp only [List.length_append, List.length_replicate, List.length_cons,
        List.length_nil] <;> omega
    refine ⟨_, by rw [pad_keccak, if_neg (by omega)], hcore.1, ?_, ?_, ?_⟩
    · rw [hcore.2.1, hblen]
      rw [hblen] at hcore
      exact hcore.2.2
    · rw [hcore.2.1, hblen]
      omega
    · rw [hcore.2.1, hblen]
      omega
  · intro hr
    have hcore := pad_core_facts ops
      (input ++ List.replicate ((input.length + 7) / 8 * 8 - input.length) ops.cfalse
        ++ [ops.cfalse, ops.ctrue, ops.ctrue, ops.cfalse]) r (by omega)
    have hblen : (input ++ List.replicate ((input.length + 7) / 8 * 8 - input.length)
        ops.cfalse ++ [ops.cfalse, ops.ctrue, ops.ctrue, ops.cfalse]).length
        = input.length + ((input.length + 7) / 8 * 8 - input.length) + 4 := by
      simp only [List.length_append, List.length_replicate, List.length_cons,
        List.length_nil] <;> omega
    refine ⟨_, by rw [pad_sha3, if_neg (by omega)], hcore.1, ?_, ?_, ?_⟩
    · rw [hcore.2.1, hblen]
      rw [hblen] at hcore
      exact hcore.2.2
    · rw [hcore.2.1, hblen]
      omega
    · rw [hcore.2.1, hblen]
      omega

/-- C4 witness: Keccak-style padding of a single one bit at bitrate 8. -/
theorem keccak_padding_growth_witness :
    ([true] : List Bool) ≠ [] ∧ (0:Nat) < 8 ∧ (8:Nat) ∣ 8
      ∧ ∃ blocks, pad_keccak boolOps [true] 8 = .ok blocks
          ∧ (∀ b ∈ blocks, b.length = 8)
          ∧ blocks.flatten.length % 8 = 0
          ∧ ([true] : List Bool).length < blocks.flatten.length
          ∧ ([true] : List Bool).length + 2 ≤ blocks.flatten.length :=
  ⟨by simp, by omega, ⟨1, rfl⟩,
   (keccak_padding_growth boolOps [true] 8 (by simp)).1 (by omega) ⟨1, rfl⟩⟩

/-- C5 (amended): for every non-empty input and every configuration with
`0 < r < WIDTH` (equivalently `4 ≤ VARIANT ≤ 799`), `hash` succeeds and returns
a bit sequence of exactly `VARIANT` bits, produced by truncating the squeeze
accumulator; the claim's original bound `r < WIDTH` alone admits `VARIANT = 800`
with `r = 0`, where the padding precondition fails instead (see the
counterexample). -/
theorem keccak_hash_output_length {α : Type} (ops : BoolOps α) (type variant : Nat)
    (input : List α) (rcs : List (List α)) (rotl : List Nat)
    (htype : type < 2) (hne : input ≠ [])
    (hvlo : 4 ≤ variant) (hvhi : variant ≤ 799)
    (hrc : ∀ rc ∈ rcs, rc.length = 64) :
    ∃ out n, hash ops type variant input rcs rotl = .ok (out, n)
      ∧ out.length = variant := by
  have hrlo : 8 ≤ (200 - variant / 4) * 8 := by omega
  have hrhi : (200 - variant / 4) * 8 ≤ 1592 := by omega
  rw [hash.eq_def, if_neg (by omega),
    if_neg (fun hemp => hne (List.isEmpty_iff.mp hemp))]
  interval_cases type
  · cases hpad : pad_keccak ops input ((200 - variant / 4) * 8) with
    | error e =>
      rw [pad_keccak, if_neg (by omega)] at hpad
      exact absurd hpad (by simp)
    | ok blocks =>
      refine ⟨_, _, rfl, ?_⟩
      rw [List.length_take]
      have hplen : (absorb ops rcs rotl (List.replicate 1600 ops.cfalse) blocks).1.length
          = 1600 := absorb_length ops rcs rotl hrc blocks
            (List.replicate 1600 ops.cfalse) (by rw [List.length_replicate])
      have hq := squeezeLoop_len ops rcs rotl variant ((200 - variant / 4) * 8)
        (by omega) (by omega) hrc variant variant
        (absorb ops rcs rotl (List.replicate 1600 ops.cfalse) blocks).1
        ((absorb ops rcs rotl (List.replicate 1600 ops.cfalse) blocks).1.take
          ((200 - variant / 4) * 8))
        hplen (by omega) le_rfl
      omega
  · cases hpad : pad_sha3 ops input ((200 - variant / 4) * 8) with
    | error e =>
      rw [pad_sha3, if_neg (by omega)] at hpad
      exact absurd hpad (by simp)
    | ok blocks =>
      refine ⟨_, _, rfl, ?_⟩
      rw [List.length_take]
      have hplen : (absorb ops rcs rotl (List.replicate 1600 ops.cfalse) blocks).1.length
          = 1600 := absorb_length ops rcs rotl hrc blocks
            (List.replicate 1600 ops.cfalse) (by rw [List.length_replicate])
      have hq := squeezeLoop_len ops rcs rotl variant ((200 - variant / 4) * 8)
        (by omega) (by omega) hrc variant variant
        (absorb ops rcs rotl (List.replicate 1600 ops.cfalse) blocks).1
        ((absorb ops rcs rotl (List.replicate 1600 ops.cfalse) blocks).1.take
          ((200 - variant / 4) * 8))
        hplen (by omega) le_rfl
      omega

/-- C5 witness: Keccak with `VARIANT = 4` on a one-bit input. -/
theorem keccak_hash_output_length_witness :
    (0:Nat) < 2 ∧ ([true] : List Bool) ≠ []
      ∧ ∃ out n, hash boolOps 0 4 [true] [] [] = .ok (out, n) ∧ out.length = 4 :=
  ⟨by omega, by simp,
   keccak_hash_output_length boolOps 0 4 [true] [] [] (by omega) (by simp) (by omega)
     (by omega) (fun rc h => absurd h (List.not_mem_nil rc))⟩

/-- C5 counterexample: at `VARIANT = 800` the derived bitrate is `0 < WIDTH`,
the input is non-empty, yet `hash` halts in the padding precondition instead of
returning an 800-bit output, so the claim fails as stated for the configuration
bound `r < WIDTH` alone. -/
theorem keccak_hash_output_length_counterexample :
    (200 - 800 / 4) * 8 < 1600 ∧ ([true] : List Bool) ≠ []
      ∧ hash boolOps 0 800 [true] [] [] = .error "The bitrate must be positive"
      ∧ ¬ ∃ out n, hash boolOps 0 800 [true] [] [] = .ok (out, n)
          ∧ out.length = 800 := by
  refine ⟨by norm_num, by simp, rfl, ?_⟩
  rintro ⟨out, n, h, -⟩
  rw [show hash boolOps 0 800 [true] [] []
    = .error "The bitrate must be positive" from rfl] at h
  exact Except.noConfusion h

/-- The value projection is a homomorphism from the mode-tagged wire semantics
to the plain boolean semantics. -/
theorem wireValHom : BoolHom wireOps boolOps Wire.val :=
  ⟨rfl, rfl, fun _ _ => rfl, fun _ _ => rfl, fun _ => rfl⟩

/-- C6: for every input and configuration, the output bit values of `hash` are
identical whether each input bit (and round-constant bit) is carried by a
constant wire or a witnessed-variable wire with the same boolean value: two
wire-level runs whose inputs agree after value projection produce results that
agree after value projection, independently of the mode tags. -/
theorem keccak_hash_representation_independence (type variant : Nat)
    (i1 i2 : List Wire) (rcs1 rcs2 : List (List Wire)) (rotl : List Nat)
    (hin : i1.map Wire.val = i2.map Wire.val)
    (hrcs : rcs1.map (List.map Wire.val) = rcs2.map (List.map Wire.val)) :
    resultVal (hash wireOps type variant i1 rcs1 rotl)
      = resultVal (hash wireOps type variant i2 rcs2 rotl) := by
  show (hash wireOps type variant i1 rcs1 rotl).map (fun p => (p.1.map Wire.val, p.2))
    = (hash wireOps type variant i2 rcs2 rotl).map (fun p => (p.1.map Wire.val, p.2))
  rw [map_hash wireOps wireValHom type variant i1 rcs1 rotl,
    map_hash wireOps wireValHom type variant i2 rcs2 rotl, hin, hrcs]

/-- C6 witness: a constant true wire against a witnessed true wire. -/
theorem keccak_hash_representation_independence_witness :
    ([Wire.mk WMode.konst true].map Wire.val = [Wire.mk WMode.wvar true].map Wire.val)
      ∧ resultVal (hash wireOps 0 4 [Wire.mk WMode.konst true] [] [])
          = resultVal (hash wireOps 0 4 [Wire.mk WMode.wvar true] [] []) :=
  ⟨rfl, keccak_hash_representation_independence 0 4 [Wire.mk WMode.konst true]
    [Wire.mk WMode.wvar true] [] [] [] rfl rfl⟩

/-- C7 counterexample: with `TYPE = Keccak`, input `[true]` and
`VARIANT_old = 4`, the old bitrate is 1592, so the claimed new output length is
`VARIANT_new = 4 + 1592 = 1596`; but the bitrate is derived from `VARIANT`, and
at `VARIANT = 1596` it collapses to 0, so that run halts in the padding
precondition and produces no output at all, refuting the claim at this
instance. -/
theorem keccak_monotonic_squeeze_counterexample :
    (200 - 4 / 4) * 8 = 1592
      ∧ hash boolOps 0 1596 [true] [] [] = .error "The bitrate must be positive"
      ∧ ¬ ∃ out1 n1 out2 n2,
          hash boolOps 0 4 [true] [] [] = .ok (out1, n1)
          ∧ hash boolOps 0 1596 [true] [] [] = .ok (out2, n2)
          ∧ n2 = n1 + 1 ∧ out2.take 4 = out1 := by
  refine ⟨rfl, rfl, ?_⟩
  rintro ⟨o1, n1, o2, n2, -, h2, -, -⟩
  rw [show hash boolOps 0 1596 [true] [] []
    = .error "The bitrate must be positive" from rfl] at h2
  exact Except.noConfusion h2

/-- C7 (amended): prefix stability holds of the squeeze phase at a FIXED
bitrate: for a fixed post-absorb state, raising the squeeze target from
`VARIANT ≥ 1` to `VARIANT + r` performs exactly one more permutation call, and
the first `VARIANT` bits of the longer (truncated) output equal the entire
shorter output.  End to end the original claim fails because `hash` derives the
bitrate from `VARIANT`, so no valid configuration pair realizes it (see the
counterexample). -/
theorem keccak_monotonic_squeeze_amended {α : Type} (ops : BoolOps α)
    (rcs : List (List α)) (rotl : List Nat) (variant bitrate : Nat) (s : List α)
    (hv : 1 ≤ variant) (hr : 0 < bitrate) (hble : bitrate ≤ 1600)
    (hrc : ∀ rc ∈ rcs, rc.length = 64) (hs : s.length = 1600)
    (f1 f2 : Nat) (hf1 : variant ≤ f1) (hf2 : variant + bitrate ≤ f2) :
    (squeezeLoop ops rcs rotl (variant + bitrate) bitrate f2 s (s.take bitrate)).2
        = (squeezeLoop ops rcs rotl variant bitrate f1 s (s.take bitrate)).2 + 1
      ∧ ((squeezeLoop ops rcs rotl (variant + bitrate) bitrate f2 s
            (s.take bitrate)).1.take (variant + bitrate)).take variant
          = (squeezeLoop ops rcs rotl variant bitrate f1 s (s.take bitrate)).1.take
              variant := by
  have hz0 : (s.take bitrate).length = bitrate := by rw [List.length_take]; omega
  have h := squeezeLoop_lockstep ops rcs rotl variant bitrate hv hr hble hrc variant f1 f2
    s (s.take bitrate) hs (by omega) (by omega) (by omega) (by omega)
  refine ⟨h.1, ?_⟩
  rw [List.take_take, min_eq_left (by omega)]
  exact h.2

/-- C7 amended witness: squeeze targets 1 and 9 at bitrate 8 from the zero
state. -/
theorem keccak_monotonic_squeeze_amended_witness :
    (1:Nat) ≤ 1 ∧ (0:Nat) < 8 ∧ (List.replicate 1600 false).length = 1600
      ∧ (squeezeLoop boolOps [] [] (1 + 8) 8 9 (List.replicate 1600 false)
            ((List.replicate 1600 false).take 8)).2
          = (squeezeLoop boolOps [] [] 1 8 1 (List.replicate 1600 false)
              ((List.replicate 1600 false).take 8)).2 + 1 :=
  ⟨le_rfl, by omega, by rw [List.length_replicate],
   (keccak_monotonic_squeeze_amended boolOps [] [] 1 8 (List.replicate 1600 false)
     le_rfl (by omega) (by omega) (fun rc h => absurd h (List.not_mem_nil rc))
     (by rw [List.length_replicate]) 1 9 le_rfl (by omega)).1⟩

/-- C8: whenever the derived bitrate `(200 - VARIANT/4) * 8` is at least the
permutation width, `hash` fails with the width error before any padding or
permutation work, for every input and both hash types. -/
theorem keccak_width_precondition {α : Type} (ops : BoolOps α) (type variant : Nat)
    (input : List α) (rcs : List (List α)) (rotl : List Nat)
    (h : 1600 ≤ (200 - variant / 4) * 8) :
    hash ops type variant input rcs rotl
      = .error "The bitrate must be less than the permutation width" := by
  rw [hash.eq_def, if_pos h]

/-- C8 witness: `VARIANT = 0` gives bitrate 1600. -/
theorem keccak_width_precondition_witness :
    (1600:Nat) ≤ (200 - 0 / 4) * 8
      ∧ hash boolOps 0 0 [true] [] []
          = .error "The bitrate must be less than the permutation width" :=
  ⟨by norm_num,
   keccak_width_precondition boolOps 0 0 [true] [] [] (by norm_num)⟩

/-- C9: invoking `hash` on an empty input halts with a fatal error before any
padding or permutation work and returns no output; a non-empty input never
triggers the empty-input error, whatever the configuration. -/
theorem keccak_empty_input_halts {α : Type} (ops : BoolOps α) (type variant : Nat)
    (input : List α) (rcs : List (List α)) (rotl : List Nat) :
    (input = [] → ∃ e, hash ops type variant input rcs rotl = .error e)
      ∧ (input ≠ [] →
          hash ops type variant input rcs rotl
            ≠ .error "The input to the hash function must not be empty") := by
  constructor
  · intro hemp
    subst hemp
    rw [hash.eq_def]
    by_cases h1 : 1600 ≤ (200 - variant / 4) * 8
    · exact ⟨_, by rw [if_pos h1]⟩
    · exact ⟨_, by
        rw [if_neg h1, if_pos (show (([] : List α).isEmpty = true) from rfl)]⟩
  · intro hne
    rw [hash.eq_def]
    by_cases h1 : 1600 ≤ (200 - variant / 4) * 8
    · rw [if_pos h1]
      intro hcon
      injection hcon with hmsg
      exact absurd hmsg (by decide)
    · rw [if_neg h1, if_neg (fun hemp => hne (List.isEmpty_iff.mp hemp))]
      rcases type with _ | _ | t
      · cases hpad : pad_keccak ops input ((200 - variant / 4) * 8) with
        | error e =>
          have hmsg : e = "The bitrate must be positive" := by
            rw [pad_keccak] at hpad
            by_cases hb : (200 - variant / 4) * 8 = 0
            · rw [if_pos hb] at hpad
              exact (Except.error.inj hpad).symm
            · rw [if_neg hb] at hpad
              exact Except.noConfusion hpad
          subst hmsg
          intro hcon
          injection hcon with hmsg2
          exact absurd hmsg2 (by decide)
        | ok blocks =>
          intro hcon
          exact Except.noConfusion hcon
      · cases hpad : pad_sha3 ops input ((200 - variant / 4) * 8) with
        | error e =>
          have hmsg : e = "The bitrate must be greater than 1" := by
            rw [pad_sha3] at hpad
            by_cases hb : (200 - variant / 4) * 8 ≤ 1
            · rw [if_pos hb] at hpad
              exact (Except.error.inj hpad).symm
            · rw [if_neg hb] at hpad
              exact Except.noConfusion hpad
          subst hmsg
          intro hcon
          injection hcon with hmsg2
          exact absurd hmsg2 (by decide)
        | ok blocks =>
          intro hcon
          exact Except.noConfusion hcon
      · intro hcon
        injection hcon with hmsg2
        exact absurd hmsg2 (by decide)

/-- C9 witness: the empty input halts; the one-bit input does not halt for that
reason. -/
theorem keccak_empty_input_halts_witness :
    (∃ e, hash boolOps 0 256 ([] : List Bool) [] [] = .error e)
      ∧ hash boolOps 0 256 [true] [] []
          ≠ .error "The input to the hash function must not be empty" :=
  ⟨(keccak_empty_input_halts boolOps 0 256 [] [] []).1 rfl,
   (keccak_empty_input_halts boolOps 0 256 [true] [] []).2 (by simp)⟩

/-- C10: during the absorb phase the block-XOR step modifies only state bits at
indices below the block length (the capacity bits `[r, WIDTH)` are untouched
between the XOR and the following permutation call), the touched bits receive
the XOR of the old state bit and the block bit, and exactly one permutation
call follows each block, so a single-block input triggers exactly one
absorb-phase permutation. -/
theorem keccak_absorb_frame {α : Type} (ops : BoolOps α) (rcs : List (List α))
    (rotl : List Nat) (s block : List α) (blocks : List (List α)) :
    (∀ j, block.length ≤ j →
        (absorbBlock ops s block).getD j ops.cfalse = s.getD j ops.cfalse)
      ∧ (∀ j, j < block.length → j < s.length →
          (absorbBlock ops s block).getD j ops.cfalse
            = ops.bxor (s.getD j ops.cfalse) (block.getD j ops.cfalse))
      ∧ (absorb ops rcs rotl s blocks).2 = blocks.length
      ∧ (blocks.length = 1 → (absorb ops rcs rotl s blocks).2 = 1) :=
  ⟨fun j hj => absorbBlock_frame ops s block j hj ops.cfalse,
   fun j h1 h2 => absorbBlock_getD ops s block j h1 h2,
   absorb_count ops rcs rotl blocks s,
   fun h1 => by rw [absorb_count ops rcs rotl blocks s, h1]⟩

/-- C10 witness: a two-bit block against a three-bit state, one block
absorbed. -/
theorem keccak_absorb_frame_witness :
    ([true, true] : List Bool).length ≤ 2
      ∧ (absorbBlock boolOps [true, false, true] [true, true]).getD 2 false
          = ([true, false, true] : List Bool).getD 2 false
      ∧ (absorb boolOps [] [] [true, false, true] [[true, true]]).2 = 1 :=
  ⟨by decide,
   (keccak_absorb_frame boolOps [] [] [true, false, true] [true, true]
     [[true, true]]).1 2 (by decide),
   (keccak_absorb_frame boolOps [] [] [true, false, true] [true, true]
     [[true, true]]).2.2.2 rfl⟩

end KeccakCircuit
